import Mathlib

/-!
Verification development for the branch-statistics core of `arktree`
(`main.go`).

Modelling conventions:
* Go slices are modelled as Lean lists.
* Go `float64` values are modelled as exact rationals (`ℚ`); the program
  only adds, divides and compares values of moderate size, and the
  specification describes the arithmetic mathematically.
* Go's multiple return values `(T, error)` are modelled as pairs with an
  `Option Err` component (`none` = Go's `nil` error).
* Out-of-range slice reads in the sort loops are modelled with a default
  value; every execution of the source keeps the indices in range, and the
  range conditions appear as hypotheses of the corresponding lemmas.
-/

namespace Arktree

/-! ### The bubble sort used by `calculateMedian`, `calculateMedianFloat`
and the frequency-table key ordering (`main.go` lines 186-193, 221-228,
311-318, 374-381; all four loops are textually identical). -/

variable {α : Type} [LinearOrder α] [Inhabited α]

/-- One execution of the body of the inner sort loop at index `j`:
`if sorted[j] > sorted[j+1] { sorted[j], sorted[j+1] = sorted[j+1], sorted[j] }`. -/
def swapStep (l : List α) (j : Nat) : List α :=
  if l.getD (j + 1) default < l.getD j default then
    (l.set j (l.getD (j + 1) default)).set (j + 1) (l.getD j default)
  else l

/-- The inner sort loop `for j := 0; j < bound; j++ { ... }`. -/
def innerLoop (l : List α) (bound : Nat) : List α :=
  (List.range bound).foldl swapStep l

/-- The whole sort:
`for i := 0; i < len(sorted)-1; i++ { for j := 0; j < len(sorted)-i-1; j++ { ... } }`. -/
def bubbleSortGo (l : List α) : List α :=
  (List.range (l.length - 1)).foldl (fun acc i => innerLoop acc (acc.length - i - 1)) l

/-- Structural reformulation of one bounded inner pass: the carried element
is the larger of each adjacent pair, exactly as the swap loop leaves it. -/
def passB : Nat → List α → List α
  | 0, l => l
  | _ + 1, [] => []
  | _ + 1, [a] => [a]
  | b + 1, a₁ :: a₂ :: t =>
    if a₂ < a₁ then a₂ :: passB b (a₁ :: t) else a₁ :: passB b (a₂ :: t)

/-- Structural reformulation of the outer loop: bounds run `c, c-1, ..., 1`. -/
def goB : Nat → List α → List α
  | 0, l => l
  | c + 1, l => goB c (passB (c + 1) l)

theorem length_swapStep (l : List α) (j : Nat) : (swapStep l j).length = l.length := by
  unfold swapStep
  split <;> simp

theorem length_foldl_swapStep (js : List Nat) (l : List α) :
    (js.foldl swapStep l).length = l.length := by
  induction js generalizing l with
  | nil => rfl
  | cons j js ih => simp [List.foldl_cons, ih, length_swapStep]

theorem length_innerLoop (l : List α) (b : Nat) : (innerLoop l b).length = l.length :=
  length_foldl_swapStep _ _

theorem swapStep_cons_succ (x : α) (m : List α) (j : Nat) :
    swapStep (x :: m) (j + 1) = x :: swapStep m j := by
  unfold swapStep
  simp only [List.getD_cons_succ, List.set_cons_succ]
  split <;> rfl

theorem foldl_swapStep_map_succ (js : List Nat) (x : α) (m : List α) :
    (js.map Nat.succ).foldl swapStep (x :: m) = x :: js.foldl swapStep m := by
  induction js generalizing m with
  | nil => rfl
  | cons j js ih => simp [List.foldl_cons, swapStep_cons_succ, ih]

theorem innerLoop_eq_passB : ∀ (b : Nat) (l : List α), b + 1 ≤ l.length →
    innerLoop l b = passB b l := by
  intro b
  induction b with
  | zero =>
    intro l _
    cases l <;> rfl
  | succ b ih =>
    intro l hl
    rcases l with _ | ⟨a₁, _ | ⟨a₂, t⟩⟩
    · simp at hl
    · simp at hl
    · have h0 : swapStep (a₁ :: a₂ :: t) 0 =
          (if a₂ < a₁ then a₂ :: a₁ :: t else a₁ :: a₂ :: t) := by
        unfold swapStep
        simp only [List.getD_cons_succ, List.getD_cons_zero]
        split <;> rfl
      unfold innerLoop
      rw [List.range_succ_eq_map, List.foldl_cons, h0]
      by_cases hc : a₂ < a₁
      · rw [if_pos hc, foldl_swapStep_map_succ]
        have hrec := ih (a₁ :: t) (by simp at hl ⊢; omega)
        unfold innerLoop at hrec
        rw [hrec]
        simp [passB, hc]
      · rw [if_neg hc, foldl_swapStep_map_succ]
        have hrec := ih (a₂ :: t) (by simp at hl ⊢; omega)
        unfold innerLoop at hrec
        rw [hrec]
        simp [passB, hc]

theorem passB_perm : ∀ (b : Nat) (l : List α), List.Perm (passB b l) l := by
  intro b
  induction b with
  | zero => intro l; rfl
  | succ b ih =>
    intro l
    rcases l with _ | ⟨a₁, _ | ⟨a₂, t⟩⟩
    · rfl
    · rfl
    · by_cases hc : a₂ < a₁
      · simp only [passB, if_pos hc]
        exact ((ih (a₁ :: t)).cons a₂).trans (List.Perm.swap a₁ a₂ t)
      · simp only [passB, if_neg hc]
        exact (ih (a₂ :: t)).cons a₁

theorem passB_split : ∀ (b : Nat) (u v : List α), u.length = b + 1 →
    passB b (u ++ v) = passB b u ++ v := by
  intro b
  induction b with
  | zero =>
    intro u v _
    rfl
  | succ b ih =>
    intro u v hu
    rcases u with _ | ⟨a₁, _ | ⟨a₂, t⟩⟩
    · simp at hu
    · simp at hu
    · have ht : t.length = b := by simpa using hu
      simp only [List.cons_append, passB]
      by_cases hc : a₂ < a₁
      · simp only [if_pos hc, List.cons_append]
        congr 1
        exact ih (a₁ :: t) v (by simp [ht])
      · simp only [if_neg hc, List.cons_append]
        congr 1
        exact ih (a₂ :: t) v (by simp [ht])

theorem passB_max : ∀ (b : Nat) (u : List α), u.length = b + 1 →
    ∃ w m, passB b u = w ++ [m] ∧ ∀ x ∈ passB b u, x ≤ m := by
  intro b
  induction b with
  | zero =>
    intro u hu
    rcases u with _ | ⟨a, _ | ⟨a₂, t⟩⟩
    · simp only [List.length_nil] at hu
      omega
    · refine ⟨[], a, rfl, ?_⟩
      intro x hx
      have hxa : x = a := by simpa [passB] using hx
      simp [hxa]
    · simp only [List.length_cons] at hu
      omega
  | succ b ih =>
    intro u hu
    rcases u with _ | ⟨a₁, _ | ⟨a₂, t⟩⟩
    · simp at hu
    · simp at hu
    · have ht : t.length = b := by simpa using hu
      by_cases hc : a₂ < a₁
      · obtain ⟨w, m, hw, hle⟩ := ih (a₁ :: t) (by simp [ht])
        have ha₁ : a₁ ≤ m := hle a₁ ((passB_perm b (a₁ :: t)).mem_iff.mpr (by simp))
        refine ⟨a₂ :: w, m, ?_, ?_⟩
        · simp [passB, hc, hw]
        · intro x hx
          simp only [passB, if_pos hc, List.mem_cons] at hx
          rcases hx with rfl | hx
          · exact le_trans hc.le ha₁
          · exact hle x hx
      · obtain ⟨w, m, hw, hle⟩ := ih (a₂ :: t) (by simp [ht])
        have ha₂ : a₂ ≤ m := hle a₂ ((passB_perm b (a₂ :: t)).mem_iff.mpr (by simp))
        refine ⟨a₁ :: w, m, ?_, ?_⟩
        · simp [passB, hc, hw]
        · intro x hx
          simp only [passB, if_neg hc, List.mem_cons] at hx
          rcases hx with rfl | hx
          · exact le_trans (not_lt.mp hc) ha₂
          · exact hle x hx

theorem goB_sorted_perm : ∀ (c : Nat) (l : List α), c + 1 ≤ l.length →
    (l.drop (c + 1)).Sorted (· ≤ ·) →
    (∀ x ∈ l.take (c + 1), ∀ y ∈ l.drop (c + 1), x ≤ y) →
    (goB c l).Sorted (· ≤ ·) ∧ List.Perm (goB c l) l := by
  intro c
  induction c with
  | zero =>
    intro l hl hs hx
    rcases l with _ | ⟨a, t⟩
    · simp at hl
    · refine ⟨List.sorted_cons.mpr ⟨?_, by simpa using hs⟩, List.Perm.refl _⟩
      intro b hb
      exact hx a (by simp) b (by simpa using hb)
  | succ c ih =>
    intro l hl hs hx
    have hu_len : (l.take (c + 2)).length = c + 2 := by
      simp [List.length_take]
      omega
    have hl_eq : l = l.take (c + 2) ++ l.drop (c + 2) := (List.take_append_drop _ l).symm
    have hsplit : passB (c + 1) l = passB (c + 1) (l.take (c + 2)) ++ l.drop (c + 2) := by
      conv_lhs => rw [hl_eq]
      exact passB_split (c + 1) _ _ hu_len
    obtain ⟨w, m, hw, hle⟩ := passB_max (c + 1) (l.take (c + 2)) hu_len
    have hperm_u : List.Perm (passB (c + 1) (l.take (c + 2))) (l.take (c + 2)) :=
      passB_perm _ _
    have hw_len : w.length = c + 1 := by
      have hlen : (w ++ [m]).length = (l.take (c + 2)).length := by
        rw [← hw]
        exact hperm_u.length_eq
      simp [hu_len] at hlen
      omega
    have hl' : passB (c + 1) l = w ++ (m :: l.drop (c + 2)) := by
      rw [hsplit, hw]
      simp
    have hm_mem_u : m ∈ l.take (c + 2) := hperm_u.mem_iff.mp (by simp [hw])
    have hdrop' : (passB (c + 1) l).drop (c + 1) = m :: l.drop (c + 2) := by
      rw [hl', ← hw_len, List.drop_left]
    have htake' : (passB (c + 1) l).take (c + 1) = w := by
      rw [hl', ← hw_len, List.take_left]
    have hpl : List.Perm (passB (c + 1) l) l := by
      rw [hsplit]
      have h1 := hperm_u.append_right (l.drop (c + 2))
      rw [List.take_append_drop] at h1
      exact h1
    have hgoal := ih (passB (c + 1) l) ?_ ?_ ?_
    · exact ⟨hgoal.1, hgoal.2.trans hpl⟩
    · have hlen : (passB (c + 1) l).length = l.length := (passB_perm _ _).length_eq
      omega
    · rw [hdrop']
      refine List.sorted_cons.mpr ⟨?_, ?_⟩
      · intro y hy
        exact hx m hm_mem_u y hy
      · exact hs
    · intro x hxmem y hymem
      rw [htake'] at hxmem
      rw [hdrop'] at hymem
      rcases List.mem_cons.mp hymem with rfl | hyv
      · exact hle x (by simp [hw, hxmem])
      · have hxu : x ∈ l.take (c + 2) := hperm_u.mem_iff.mp (by simp [hw, hxmem])
        exact hx x hxu y hyv

/-- The outer fold of `bubbleSortGo`, cut off after `c` iterations. -/
def outerFold (c : Nat) (l : List α) : List α :=
  (List.range c).foldl (fun acc i => innerLoop acc (acc.length - i - 1)) l

theorem length_outerFold (c : Nat) (l : List α) : (outerFold c l).length = l.length := by
  induction c with
  | zero => rfl
  | succ c ih =>
    unfold outerFold at ih ⊢
    rw [List.range_succ, List.foldl_append, List.foldl_cons, List.foldl_nil, length_innerLoop]
    exact ih

theorem outerFold_succ (c : Nat) (l : List α) :
    outerFold (c + 1) l = innerLoop (outerFold c l) ((outerFold c l).length - c - 1) := by
  unfold outerFold
  rw [List.range_succ, List.foldl_append, List.foldl_cons, List.foldl_nil]

theorem bubbleSortGo_eq_outerFold (l : List α) :
    bubbleSortGo l = outerFold (l.length - 1) l := rfl

theorem goB_outerFold (l : List α) : ∀ k, k ≤ l.length - 1 →
    goB k (outerFold (l.length - 1 - k) l) = outerFold (l.length - 1) l := by
  intro k
  induction k with
  | zero =>
    intro _
    simp [goB]
  | succ k ih =>
    intro hk
    have hn : l.length - 1 - k = (l.length - 1 - (k + 1)) + 1 := by omega
    have hstep :
        passB (k + 1) (outerFold (l.length - 1 - (k + 1)) l) =
          outerFold (l.length - 1 - k) l := by
      rw [hn, outerFold_succ, length_outerFold]
      have hb : l.length - (l.length - 1 - (k + 1)) - 1 = k + 1 := by omega
      rw [hb]
      exact (innerLoop_eq_passB (k + 1) (outerFold (l.length - 1 - (k + 1)) l)
        (by rw [length_outerFold]; omega)).symm
    have := ih (by omega)
    rw [← this, ← hstep]
    rfl

theorem bubbleSortGo_eq_goB (l : List α) : bubbleSortGo l = goB (l.length - 1) l := by
  have h := goB_outerFold l (l.length - 1) le_rfl
  rw [Nat.sub_self] at h
  rw [bubbleSortGo_eq_outerFold, ← h]
  rfl

theorem bubbleSortGo_sorted (l : List α) : (bubbleSortGo l).Sorted (· ≤ ·) := by
  rw [bubbleSortGo_eq_goB]
  rcases l with _ | ⟨a, t⟩
  · exact List.sorted_nil
  · have hlen : (a :: t).length - 1 + 1 = (a :: t).length := by simp
    have h := goB_sorted_perm ((a :: t).length - 1) (a :: t) (by omega) ?_ ?_
    · exact h.1
    · rw [hlen, List.drop_length]
      exact List.sorted_nil
    · intro x _ y hy
      rw [hlen, List.drop_length] at hy
      exact absurd hy (List.not_mem_nil y)

theorem bubbleSortGo_perm (l : List α) : List.Perm (bubbleSortGo l) l := by
  rw [bubbleSortGo_eq_goB]
  rcases l with _ | ⟨a, t⟩
  · rfl
  · have hlen : (a :: t).length - 1 + 1 = (a :: t).length := by simp
    have h := goB_sorted_perm ((a :: t).length - 1) (a :: t) (by omega) ?_ ?_
    · exact h.2
    · rw [hlen, List.drop_length]
      exact List.sorted_nil
    · intro x _ y hy
      rw [hlen, List.drop_length] at hy
      exact absurd hy (List.not_mem_nil y)

theorem length_bubbleSortGo (l : List α) : (bubbleSortGo l).length = l.length :=
  (bubbleSortGo_perm l).length_eq

/-- The Go bubble sort computes the canonical ascending sort of its input. -/
theorem bubbleSortGo_eq_insertionSort (l : List α) :
    bubbleSortGo l = l.insertionSort (· ≤ ·) :=
  List.eq_of_perm_of_sorted
    ((bubbleSortGo_perm l).trans (List.perm_insertionSort _ l).symm)
    (bubbleSortGo_sorted l) (List.sorted_insertionSort _ l)

theorem bubbleSortGo_congr_perm {l₁ l₂ : List α} (h : List.Perm l₁ l₂) :
    bubbleSortGo l₁ = bubbleSortGo l₂ :=
  List.eq_of_perm_of_sorted ((bubbleSortGo_perm l₁).trans (h.trans (bubbleSortGo_perm l₂).symm))
    (bubbleSortGo_sorted l₁) (bubbleSortGo_sorted l₂)

/-! ### Statistics helpers (`main.go` lines 290-329, 353-392) -/

/-- The median-reading tail of `calculateMedian` (`main.go` 320-328):
`n := len(sorted)`, then the even/odd case split; `sorted[i]` is modelled
with `getD` (the index is always in range). -/
def medianRead (sorted : List ℤ) : ℚ :=
  if sorted.length % 2 = 0 then
    ((sorted.getD (sorted.length / 2 - 1) 0 + sorted.getD (sorted.length / 2) 0 : ℤ) : ℚ) / 2
  else ((sorted.getD (sorted.length / 2) 0 : ℤ) : ℚ)

/-- Embedding of `calculateMedian` (`main.go` 302-329).  Go's `float64`
result is modelled as `ℚ`. -/
def calculateMedian (values : List ℤ) : ℚ :=
  if values.length = 0 then 0 else medianRead (bubbleSortGo values)

/-- The median-reading tail of `calculateMedianFloat` (`main.go` 383-391). -/
def medianReadF (sorted : List ℚ) : ℚ :=
  if sorted.length % 2 = 0 then
    (sorted.getD (sorted.length / 2 - 1) 0 + sorted.getD (sorted.length / 2) 0) / 2
  else sorted.getD (sorted.length / 2) 0

/-- Embedding of `calculateMedianFloat` (`main.go` 365-392). -/
def calculateMedianFloat (values : List ℚ) : ℚ :=
  if values.length = 0 then 0 else medianReadF (bubbleSortGo values)

/-- Embedding of `calculateAverage` (`main.go` 290-300). -/
def calculateAverage (values : List ℤ) : ℚ :=
  if values.length = 0 then 0 else ((values.sum : ℤ) : ℚ) / (values.length : ℚ)

/-- Embedding of `calculateAverageFloat` (`main.go` 353-363). -/
def calculateAverageFloat (values : List ℚ) : ℚ :=
  if values.length = 0 then 0 else values.sum / (values.length : ℚ)

/-- Go's `int(x)` conversion: truncation toward zero. -/
def truncTowardZero (q : ℚ) : ℤ := if 0 ≤ q then ⌊q⌋ else -⌊-q⌋

/-- The grouping key of the weight frequency table
(`main.go` 207: `roundedWeight := float64(int(weight*100)) / 100`). -/
def weightKey (w : ℚ) : ℚ := (truncTowardZero (w * 100) : ℚ) / 100

/-- The weight frequency table built by `generateCmd.Run` (`main.go`
204-237): one bucket per distinct key (Go map `weightCount`), counts
incremented per weight, keys emitted in bubble-sorted ascending order.
Go's map iteration order is arbitrary, but sorting makes the emitted
sequence independent of it, so the buckets are enumerated from `dedup`. -/
def weightGroups (ws : List ℚ) : List (ℚ × Nat) :=
  (bubbleSortGo ((ws.map weightKey).dedup)).map fun k => (k, (ws.map weightKey).count k)

/-- The branch-size frequency table built by `generateCmd.Run` (`main.go`
171-202): identity grouping key. -/
def sizeGroups (xs : List ℤ) : List (ℤ × Nat) :=
  (bubbleSortGo xs.dedup).map fun s => (s, xs.count s)

/-- Written from the specification's words, for comparison with
`weightKey`: "a grouping key equal to that weight rounded to 2 decimal
places", i.e. rounding to the nearest multiple of `1/100`. -/
def specRound2 (w : ℚ) : ℚ := (round (w * 100) : ℤ) / 100

theorem getD_map {β : Type} (f : α → β) :
    ∀ (l : List α) (i : Nat) (d : α), (l.map f).getD i (f d) = f (l.getD i d) := by
  intro l
  induction l with
  | nil => intro i d; rfl
  | cons a t ih =>
    intro i d
    cases i with
    | zero => rfl
    | succ i => simp [ih i d]

/-- Model of Go's `float64(...)` conversion applied to an `int`. -/
def toF (a : ℤ) : ℚ := (a : ℚ)

theorem bubbleSortGo_map_cast (l : List ℤ) :
    bubbleSortGo (l.map toF) = (bubbleSortGo l).map toF := by
  refine List.eq_of_perm_of_sorted ?_ (bubbleSortGo_sorted _) ?_
  · exact (bubbleSortGo_perm _).trans (((bubbleSortGo_perm l).map toF).symm)
  · rw [List.Sorted, List.pairwise_map]
    exact (bubbleSortGo_sorted l).imp fun h => Int.cast_le.mpr h

/-! ### The transaction graph

The graph type and its accessors (`tree.TxGraph`, `Leaves`, `SubGraph`,
`Apply`, `GetCosignerKeys`) live in the external ark library; the
specification gives their contracts (sections 3, 4.1, 4.2, 6), from which
they are modelled here.  The repository's own analysis functions
(`numberOfNodes`, `computeBroadcastWeight`, `sizeOfBranches`,
`weightOfBranches`) are embedded from `main.go` on top of that model. -/

/-- Error kinds of the analysis (specification section 7), plus the Go
runtime panic raised by indexing the empty `Inputs` slice in
`computeBroadcastWeight`. -/
inductive Err where
  | notFound
  | invalidNode
  | indexOutOfRange
deriving DecidableEq, Repr

/-- A transaction input; `cosigners` models the cosigner-key metadata read
by the external cosigner lookup (`none` when it cannot be determined). -/
structure TxIn where
  cosigners : Option (List String)
deriving DecidableEq, Repr

/-- A transaction (one graph node): its identifier and its inputs. -/
structure TxNode where
  txid : String
  inputs : List TxIn
deriving DecidableEq, Repr

/-- Modelled from the spec: the external `tree.TxGraph` (section 3), a
rooted tree whose node carries a transaction and an ordered list of child
subtrees. -/
inductive TxGraph : Type where
  | mk (root : TxNode) (children : List TxGraph)

def TxGraph.root : TxGraph → TxNode
  | .mk r _ => r

def TxGraph.children : TxGraph → List TxGraph
  | .mk _ cs => cs

mutual

/-- All subtrees of a graph in depth-first preorder (the graph itself
first); the traversal visits exactly these, in this order. -/
def TxGraph.subtrees : TxGraph → List TxGraph
  | .mk r cs => .mk r cs :: subtreesList cs

def subtreesList : List TxGraph → List TxGraph
  | [] => []
  | g :: gs => g.subtrees ++ subtreesList gs

end

/-- The nodes of a graph, in visit order. -/
def TxGraph.nodes (g : TxGraph) : List TxNode := g.subtrees.map TxGraph.root

/-- Sequential early-stopping run of a visitor over a list of subtrees. -/
def foldE {σ : Type} (visit : σ → TxGraph → Except Err (Bool × σ)) :
    σ → List TxGraph → Except Err (Bool × σ)
  | s, [] => .ok (true, s)
  | s, g :: gs =>
    match visit s g with
    | .error e => .error e
    | .ok (false, s') => .ok (false, s')
    | .ok (true, s') => foldE visit s' gs

/-- Modelled from the spec: the external `TxGraph.Apply` (section 4.1):
applies the visitor to every reachable node exactly once, a parent before
its children, halting immediately when the visitor stops or fails; the
visitor's closure state is threaded explicitly. -/
def TxGraph.apply {σ : Type} (g : TxGraph)
    (visit : σ → TxGraph → Except Err (Bool × σ)) (s : σ) : Except Err (Bool × σ) :=
  foldE visit s g.subtrees

/-- Modelled from the spec: the external `TxGraph.Leaves` (section 6):
enumerates the graph's leaves (nodes with no children). -/
def TxGraph.leaves (g : TxGraph) : List TxNode :=
  (g.subtrees.filter fun h => h.children.isEmpty).map TxGraph.root

mutual

/-- The list of nodes on the path from the root to the (first) node with
the given id, if present. -/
def findPath : TxGraph → String → Option (List TxNode)
  | .mk r cs, tid =>
    if r.txid = tid then some [r]
    else
      match findPathList cs tid with
      | some p => some (r :: p)
      | none => none

def findPathList : List TxGraph → String → Option (List TxNode)
  | [], _ => none
  | g :: gs, tid =>
    match findPath g tid with
    | some p => some p
    | none => findPathList gs tid

end

/-- A chain graph (each node with a single child) from a list of nodes. -/
def chainGraph : TxNode → List TxNode → TxGraph
  | n, [] => .mk n []
  | n, m :: rest => .mk n [chainGraph m rest]

/-- Modelled from the spec: the external `TxGraph.SubGraph` (section 4.2),
specialised to the singleton id set the source always passes: the minimal
subgraph connecting the identified node to the root (the path between
them), failing with `NotFound` when the id is absent. -/
def TxGraph.subGraphOne (g : TxGraph) (tid : String) : Except Err TxGraph :=
  match findPath g tid with
  | some (n :: p) => .ok (chainGraph n p)
  | some [] => .error .notFound
  | none => .error .notFound

/-- The counting visitor of `numberOfNodes` (`main.go` 281-283). -/
def countVisitor (count : Nat) (_ : TxGraph) : Except Err (Bool × Nat) :=
  .ok (true, count + 1)

/-- Embedding of `numberOfNodes` (`main.go` 279-288); Go's `return 0, err`
and `return count, nil` are the two forms of the returned pair. -/
def numberOfNodes (g : TxGraph) : Nat × Option Err :=
  match g.apply countVisitor 0 with
  | .error e => (0, some e)
  | .ok (_, count) => (count, none)

/-- Modelled from the spec: the external cosigner lookup
`tree.GetCosignerKeys` (section 6): returns the input's cosigner public
keys, failing (`InvalidNode`, section 7) when the metadata is missing. -/
def getCosignerKeys (i : TxIn) : Except Err (List String) :=
  match i.cosigners with
  | some ks => .ok ks
  | none => .error .invalidNode

/-- The visitor of `computeBroadcastWeight` (`main.go` 398-406):
`g.Root.Inputs[0]` panics with an index-out-of-range runtime error when
`Inputs` is empty; otherwise the cosigner keys are looked up and
`1/len(cosignerKeys)` is accumulated. -/
def weightVisitor (w : ℚ) (g : TxGraph) : Except Err (Bool × ℚ) :=
  match g.root.inputs with
  | [] => .error .indexOutOfRange
  | i :: _ =>
    match getCosignerKeys i with
    | .error e => .error e
    | .ok ks => .ok (true, w + 1 / (ks.length : ℚ))

/-- Embedding of `computeBroadcastWeight` (`main.go` 396-411). -/
def computeBroadcastWeight (branch : TxGraph) : ℚ × Option Err :=
  match branch.apply weightVisitor 0 with
  | .error e => (0, some e)
  | .ok (_, w) => (w, none)

/-- The loop of `sizeOfBranches` (`main.go` 262-274), over the ids it
passes to `SubGraph`, with the early `return nil, err` on failure. -/
def sizeLoop (g : TxGraph) : List String → Option (List Nat) × Option Err
  | [] => (some [], none)
  | tid :: rest =>
    match g.subGraphOne tid with
    | .error e => (none, some e)
    | .ok branch =>
      match numberOfNodes branch with
      | (_, some e) => (none, some e)
      | (count, none) =>
        match sizeLoop g rest with
        | (none, e) => (none, e)
        | (some l, _) => (some (count :: l), none)

/-- Embedding of `sizeOfBranches` (`main.go` 257-277). -/
def sizeOfBranches (g : TxGraph) : Option (List Nat) × Option Err :=
  sizeLoop g (g.leaves.map TxNode.txid)

/-- The loop of `weightOfBranches` (`main.go` 336-348). -/
def weightLoop (g : TxGraph) : List String → Option (List ℚ) × Option Err
  | [] => (some [], none)
  | tid :: rest =>
    match g.subGraphOne tid with
    | .error e => (none, some e)
    | .ok branch =>
      match computeBroadcastWeight branch with
      | (_, some e) => (none, some e)
      | (w, none) =>
        match weightLoop g rest with
        | (none, e) => (none, e)
        | (some l, _) => (some (w :: l), none)

/-- Embedding of `weightOfBranches` (`main.go` 331-351). -/
def weightOfBranches (g : TxGraph) : Option (List ℚ) × Option Err :=
  weightLoop g (g.leaves.map TxNode.txid)

/-- Well-formedness of a graph (specification section 3): node identifiers
are unique within the graph. -/
def TxGraph.wellFormed (g : TxGraph) : Prop := (g.nodes.map TxNode.txid).Nodup

/-! ### Traversal lemmas -/

theorem foldE_count : ∀ (l : List TxGraph) (s : Nat),
    foldE countVisitor s l = .ok (true, s + l.length) := by
  intro l
  induction l with
  | nil => intro s; rfl
  | cons g gs ih =>
    intro s
    show foldE countVisitor (s + 1) gs = _
    rw [ih]
    simp [Nat.add_comm, Nat.add_assoc, Nat.add_left_comm]

theorem numberOfNodes_eq (g : TxGraph) : numberOfNodes g = (g.nodes.length, none) := by
  unfold numberOfNodes TxGraph.apply
  rw [foldE_count]
  simp [TxGraph.nodes]

theorem nodes_chainGraph : ∀ (p : List TxNode) (n : TxNode),
    (chainGraph n p).nodes = n :: p := by
  intro p
  induction p with
  | nil => intro n; rfl
  | cons m rest ih =>
    intro n
    have ihm := ih m
    unfold TxGraph.nodes at ihm ⊢
    rw [show chainGraph n (m :: rest) = .mk n [chainGraph m rest] from rfl]
    rw [show (TxGraph.mk n [chainGraph m rest]).subtrees
      = TxGraph.mk n [chainGraph m rest] :: ((chainGraph m rest).subtrees ++ subtreesList [])
      from by simp [TxGraph.subtrees, subtreesList]]
    simp only [subtreesList, List.append_nil, List.map_cons]
    rw [ihm]
    rfl

/-- The cosigner metadata of a node's first input, when both exist. -/
def firstCosigners (nd : TxNode) : Option (List String) :=
  nd.inputs.head?.bind TxIn.cosigners

/-- The summand `1/len(cosignerKeys)` contributed by one node. -/
def weightTerm (nd : TxNode) : ℚ := 1 / ((((firstCosigners nd).getD []).length : ℚ))

theorem weightVisitor_of_some {nd : TxNode} {ks : List String}
    (h : firstCosigners nd = some ks) (w : ℚ) (cs : List TxGraph) :
    weightVisitor w (.mk nd cs) = .ok (true, w + weightTerm nd) := by
  rcases hin : nd.inputs with _ | ⟨i, rest⟩
  · unfold firstCosigners at h
    rw [hin] at h
    simp at h
  · have hc : i.cosigners = some ks := by
      unfold firstCosigners at h
      rw [hin] at h
      simpa using h
    have ht : weightTerm nd = 1 / (ks.length : ℚ) := by
      unfold weightTerm firstCosigners
      rw [hin]
      simp [hc]
    simp [weightVisitor, TxGraph.root, getCosignerKeys, hin, hc, ht]

theorem foldE_weight_ok : ∀ (l : List TxGraph) (w : ℚ),
    (∀ h ∈ l, (firstCosigners h.root).isSome) →
    foldE weightVisitor w l = .ok (true, w + (l.map fun h => weightTerm h.root).sum) := by
  intro l
  induction l with
  | nil =>
    intro w _
    simp [foldE]
  | cons g gs ih =>
    intro w hgood
    rcases g with ⟨nd, cs⟩
    have hnd : (firstCosigners nd).isSome := by
      have hg := hgood (.mk nd cs) (by simp)
      simpa [TxGraph.root] using hg
    obtain ⟨ks, hks⟩ := Option.isSome_iff_exists.mp hnd
    have hv := weightVisitor_of_some hks w cs
    have hrec := ih (w + weightTerm nd) fun h hm => hgood h (by simp [hm])
    simp [foldE, hv, hrec, TxGraph.root, add_assoc]

theorem foldE_weight_err : ∀ (l : List TxGraph) (w : ℚ),
    (∃ h ∈ l, ¬ (firstCosigners h.root).isSome) →
    ∃ e, foldE weightVisitor w l = .error e ∧
      ((e = .indexOutOfRange ∧ ∃ h ∈ l, h.root.inputs = []) ∨
       (e = .invalidNode ∧ ∃ h ∈ l, h.root.inputs ≠ [] ∧ firstCosigners h.root = none)) := by
  intro l
  induction l with
  | nil =>
    intro w hbad
    simp at hbad
  | cons g gs ih =>
    intro w hbad
    rcases g with ⟨nd, cs⟩
    by_cases hg : (firstCosigners nd).isSome
    · obtain ⟨ks, hks⟩ := Option.isSome_iff_exists.mp hg
      have hv := weightVisitor_of_some hks w cs
      have hrest : ∃ h ∈ gs, ¬ (firstCosigners h.root).isSome := by
        rcases hbad with ⟨h, hmem, hnot⟩
        rcases List.mem_cons.mp hmem with rfl | hmem'
        · exact absurd (by simpa [TxGraph.root] using hg) hnot
        · exact ⟨h, hmem', hnot⟩
      obtain ⟨e, he, hkind⟩ := ih (w + weightTerm nd) hrest
      refine ⟨e, ?_, ?_⟩
      · unfold foldE
        rw [hv]
        exact he
      · rcases hkind with ⟨rfl, h, hm, hp⟩ | ⟨rfl, h, hm, hp⟩
        · exact Or.inl ⟨rfl, h, by simp [hm], hp⟩
        · exact Or.inr ⟨rfl, h, by simp [hm], hp⟩
    · rcases hin : nd.inputs with _ | ⟨i, rest⟩
      · refine ⟨.indexOutOfRange, ?_,
          Or.inl ⟨rfl, .mk nd cs, by simp, by simpa [TxGraph.root] using hin⟩⟩
        unfold foldE
        simp [weightVisitor, TxGraph.root, hin]
      · have hcos : i.cosigners = none := by
          rcases hc : i.cosigners with _ | ks
          · rfl
          · exfalso
            apply hg
            unfold firstCosigners
            rw [hin]
            simp [hc]
        refine ⟨.invalidNode, ?_, Or.inr ⟨rfl, .mk nd cs, by simp, ?_, ?_⟩⟩
        · unfold foldE
          simp [weightVisitor, TxGraph.root, getCosignerKeys, hin, hcos]
        · simp [TxGraph.root, hin]
        · simp [TxGraph.root, firstCosigners, hin, hcos]

theorem computeBroadcastWeight_ok {g : TxGraph}
    (h : ∀ nd ∈ g.nodes, (firstCosigners nd).isSome) :
    computeBroadcastWeight g = ((g.nodes.map weightTerm).sum, none) := by
  unfold computeBroadcastWeight TxGraph.apply
  rw [foldE_weight_ok g.subtrees 0 fun t ht =>
    h t.root (by unfold TxGraph.nodes; exact List.mem_map_of_mem _ ht)]
  unfold TxGraph.nodes
  rw [List.map_map]
  simp [Function.comp_def]

theorem computeBroadcastWeight_err {g : TxGraph}
    (h : ∃ nd ∈ g.nodes, ¬ (firstCosigners nd).isSome) :
    (computeBroadcastWeight g).1 = 0 ∧
      ∃ e, (computeBroadcastWeight g).2 = some e ∧
        ((e = .indexOutOfRange ∧ ∃ nd ∈ g.nodes, nd.inputs = []) ∨
         (e = .invalidNode ∧ ∃ nd ∈ g.nodes, nd.inputs ≠ [] ∧ firstCosigners nd = none)) := by
  have hsub : ∃ t ∈ g.subtrees, ¬ (firstCosigners t.root).isSome := by
    rcases h with ⟨nd, hmem, hnot⟩
    unfold TxGraph.nodes at hmem
    rcases List.mem_map.mp hmem with ⟨t, hts, rfl⟩
    exact ⟨t, hts, hnot⟩
  obtain ⟨e, he, hkind⟩ := foldE_weight_err g.subtrees 0 hsub
  unfold computeBroadcastWeight TxGraph.apply
  rw [he]
  refine ⟨rfl, e, rfl, ?_⟩
  rcases hkind with ⟨rfl, t, hts, hp⟩ | ⟨rfl, t, hts, hp⟩
  · exact Or.inl ⟨rfl, t.root, List.mem_map_of_mem _ hts, hp⟩
  · exact Or.inr ⟨rfl, t.root, List.mem_map_of_mem _ hts, hp⟩

mutual

theorem findPath_isSome : ∀ (g : TxGraph) (tid : String),
    (∃ nd ∈ g.nodes, nd.txid = tid) → ∃ p, findPath g tid = some p
  | .mk r cs, tid, hmem => by
    unfold findPath
    by_cases hr : r.txid = tid
    · exact ⟨[r], by rw [if_pos hr]⟩
    · have hcs : ∃ nd ∈ (subtreesList cs).map TxGraph.root, nd.txid = tid := by
        rcases hmem with ⟨nd, hnd, htid⟩
        unfold TxGraph.nodes at hnd
        rw [show (TxGraph.mk r cs).subtrees = TxGraph.mk r cs :: subtreesList cs
          from by simp [TxGraph.subtrees]] at hnd
        simp only [List.map_cons, List.mem_cons] at hnd
        rcases hnd with rfl | hnd
        · exact absurd htid hr
        · exact ⟨nd, hnd, htid⟩
      obtain ⟨p, hp⟩ := findPathList_isSome cs tid hcs
      rw [if_neg hr, hp]
      exact ⟨r :: p, rfl⟩

theorem findPathList_isSome : ∀ (gs : List TxGraph) (tid : String),
    (∃ nd ∈ (subtreesList gs).map TxGraph.root, nd.txid = tid) →
    ∃ p, findPathList gs tid = some p
  | [], tid, hmem => by
    rw [show subtreesList [] = [] from by simp [subtreesList]] at hmem
    simp at hmem
  | g :: gs, tid, hmem => by
    unfold findPathList
    rw [show subtreesList (g :: gs) = g.subtrees ++ subtreesList gs
      from by simp [subtreesList]] at hmem
    simp only [List.map_append, List.mem_append] at hmem
    rcases hmem with ⟨nd, hnd | hnd, htid⟩
    · obtain ⟨p, hp⟩ := findPath_isSome g tid ⟨nd, hnd, htid⟩
      rw [hp]
      exact ⟨p, rfl⟩
    · obtain ⟨p, hp⟩ := findPathList_isSome gs tid ⟨nd, hnd, htid⟩
      rcases hfg : findPath g tid with _ | q
      · rw [hp]
        exact ⟨p, rfl⟩
      · exact ⟨q, rfl⟩

end

mutual

theorem findPath_length : ∀ (g : TxGraph) (tid : String) (p : List TxNode),
    findPath g tid = some p → 1 ≤ p.length ∧ p.length ≤ g.nodes.length
  | .mk r cs, tid, p, hp => by
    unfold findPath at hp
    by_cases hr : r.txid = tid
    · rw [if_pos hr] at hp
      cases hp
      constructor
      · simp
      · have : (TxGraph.mk r cs).nodes.length = 1 + ((subtreesList cs).map TxGraph.root).length := by
          unfold TxGraph.nodes
          rw [show (TxGraph.mk r cs).subtrees = TxGraph.mk r cs :: subtreesList cs
            from by simp [TxGraph.subtrees]]
          simp [Nat.add_comm]
        simp [this]
    · rw [if_neg hr] at hp
      rcases hq : findPathList cs tid with _ | q
      · rw [hq] at hp
        cases hp
      · rw [hq] at hp
        cases hp
        have hrec := findPathList_length cs tid q hq
        have hlen : (TxGraph.mk r cs).nodes.length = 1 + (subtreesList cs).length := by
          unfold TxGraph.nodes
          rw [show (TxGraph.mk r cs).subtrees = TxGraph.mk r cs :: subtreesList cs
            from by simp [TxGraph.subtrees]]
          simp [Nat.add_comm]
        constructor
        · simp
        · simp only [List.length_cons, hlen]
          omega

theorem findPathList_length : ∀ (gs : List TxGraph) (tid : String) (p : List TxNode),
    findPathList gs tid = some p → 1 ≤ p.length ∧ p.length ≤ (subtreesList gs).length
  | [], tid, p, hp => by
    unfold findPathList at hp
    cases hp
  | g :: gs, tid, p, hp => by
    unfold findPathList at hp
    rw [show subtreesList (g :: gs) = g.subtrees ++ subtreesList gs
      from by simp [subtreesList]]
    rcases hfg : findPath g tid with _ | q
    · rw [hfg] at hp
      have hrec := findPathList_length gs tid p hp
      simp only [List.length_append]
      omega
    · rw [hfg] at hp
      cases hp
      have hrec := findPath_length g tid p hfg
      have : g.nodes.length = g.subtrees.length := by
        unfold TxGraph.nodes
        simp
      simp only [List.length_append]
      omega

end

theorem nodes_length_eq_subtrees (g : TxGraph) : g.nodes.length = g.subtrees.length := by
  unfold TxGraph.nodes
  simp

theorem leaves_subset_nodes {g : TxGraph} {nd : TxNode} (h : nd ∈ g.leaves) :
    nd ∈ g.nodes := by
  unfold TxGraph.leaves at h
  unfold TxGraph.nodes
  rcases List.mem_map.mp h with ⟨t, ht, rfl⟩
  exact List.mem_map_of_mem _ (List.mem_of_mem_filter ht)

theorem subGraphOne_of_mem {g : TxGraph} {nd : TxNode} (h : nd ∈ g.nodes) :
    ∃ b, g.subGraphOne nd.txid = .ok b ∧
      (numberOfNodes b).2 = none ∧
      1 ≤ (numberOfNodes b).1 ∧ (numberOfNodes b).1 ≤ g.nodes.length := by
  obtain ⟨p, hp⟩ := findPath_isSome g nd.txid ⟨nd, h, rfl⟩
  obtain ⟨h1, h2⟩ := findPath_length g nd.txid p hp
  rcases p with _ | ⟨n, rest⟩
  · simp at h1
  · refine ⟨chainGraph n rest, ?_, ?_, ?_, ?_⟩
    · unfold TxGraph.subGraphOne
      rw [hp]
    · rw [numberOfNodes_eq]
    · rw [numberOfNodes_eq, nodes_chainGraph]
      simp
    · rw [numberOfNodes_eq, nodes_chainGraph]
      simpa using h2

theorem sizeLoop_ok (g : TxGraph) : ∀ (tids : List String),
    (∀ t ∈ tids, ∃ nd ∈ g.nodes, nd.txid = t) →
    ∃ l, sizeLoop g tids = (some l, none) ∧ l.length = tids.length ∧
      ∀ c ∈ l, 1 ≤ c ∧ c ≤ g.nodes.length := by
  intro tids
  induction tids with
  | nil =>
    intro _
    exact ⟨[], rfl, rfl, by simp⟩
  | cons t rest ih =>
    intro hall
    obtain ⟨nd, hnd, rfl⟩ := hall t (by simp)
    obtain ⟨b, hb, _, hge, hle⟩ := subGraphOne_of_mem hnd
    obtain ⟨l, hl, hlen, hbound⟩ := ih fun t' ht' => hall t' (by simp [ht'])
    refine ⟨(numberOfNodes b).1 :: l, ?_, by simp [hlen], ?_⟩
    · simp [sizeLoop, hb, numberOfNodes_eq, hl]
    · intro c hc
      rcases List.mem_cons.mp hc with rfl | hc
      · exact ⟨hge, hle⟩
      · exact hbound c hc

theorem sizeLoop_err (g : TxGraph) : ∀ (tids₁ : List String) (t : String)
    (tids₂ : List String) (e : Err),
    (∀ t' ∈ tids₁, ∃ b, g.subGraphOne t' = .ok b) →
    g.subGraphOne t = .error e →
    sizeLoop g (tids₁ ++ t :: tids₂) = (none, some e) := by
  intro tids₁
  induction tids₁ with
  | nil =>
    intro t tids₂ e _ ht
    simp [sizeLoop, ht]
  | cons t' rest ih =>
    intro t tids₂ e hpre ht
    obtain ⟨b, hb⟩ := hpre t' (by simp)
    have hrec := ih t tids₂ e (fun x hx => hpre x (by simp [hx])) ht
    simp [sizeLoop, hb, numberOfNodes_eq, hrec]

theorem weightLoop_err (g : TxGraph) : ∀ (tids₁ : List String) (t : String)
    (tids₂ : List String) (e : Err),
    (∀ t' ∈ tids₁, ∃ b w, g.subGraphOne t' = .ok b ∧ computeBroadcastWeight b = (w, none)) →
    (g.subGraphOne t = .error e ∨
      ∃ b, g.subGraphOne t = .ok b ∧ (computeBroadcastWeight b).2 = some e) →
    weightLoop g (tids₁ ++ t :: tids₂) = (none, some e) := by
  intro tids₁
  induction tids₁ with
  | nil =>
    intro t tids₂ e _ ht
    rcases ht with ht | ⟨b, hb, hw⟩
    · simp [weightLoop, ht]
    · rcases hcb : computeBroadcastWeight b with ⟨x, e'⟩
      rw [hcb] at hw
      simp only at hw
      subst hw
      simp [weightLoop, hb, hcb]
  | cons t' rest ih =>
    intro t tids₂ e hpre ht
    obtain ⟨b, w, hb, hw⟩ := hpre t' (by simp)
    have hrec := ih t tids₂ e (fun x hx => hpre x (by simp [hx])) ht
    simp [weightLoop, hb, hw, hrec]

/-! ### Heap-level model of the median functions (for the frame property)

The store is the list of live slices; a Go slice value is an index into
it.  `make`+`copy` appends a fresh slice; the sort loops write (only)
through the fresh index. -/

/-- The inner-loop body at the store level: one comparison/swap performed
in place on slice `r`. -/
def storeStep (s : List (List α)) (r j : Nat) : List (List α) :=
  s.set r (swapStep (s.getD r []) j)

/-- The inner sort loop, mutating slice `r` in place. -/
def storeInner (s : List (List α)) (r bound : Nat) : List (List α) :=
  (List.range bound).foldl (fun t j => storeStep t r j) s

/-- The whole sort, mutating slice `r` in place. -/
def storeSort (s : List (List α)) (r : Nat) : List (List α) :=
  (List.range ((s.getD r []).length - 1)).foldl
    (fun t i => storeInner t r ((t.getD r []).length - i - 1)) s

/-- Heap-level embedding of `calculateMedian` (`main.go` 302-329): the
caller's slice is index `r`; `sorted := make(...); copy(sorted, values)`
allocates the fresh slice (index `s.length`), which is then sorted in
place; the result is read from the fresh slice and the final store is
returned alongside it. -/
def calculateMedianH (s : List (List ℤ)) (r : Nat) : ℚ × List (List ℤ) :=
  if (s.getD r []).length = 0 then (0, s)
  else
    (medianRead ((storeSort (s ++ [s.getD r []]) s.length).getD s.length []),
     storeSort (s ++ [s.getD r []]) s.length)

/-- Heap-level embedding of `calculateMedianFloat` (`main.go` 365-392). -/
def calculateMedianFloatH (s : List (List ℚ)) (r : Nat) : ℚ × List (List ℚ) :=
  if (s.getD r []).length = 0 then (0, s)
  else
    (medianReadF ((storeSort (s ++ [s.getD r []]) s.length).getD s.length []),
     storeSort (s ++ [s.getD r []]) s.length)

theorem getD_set_self {β : Type} : ∀ (s : List β) (r : Nat) (v d : β),
    r < s.length → (s.set r v).getD r d = v := by
  intro s
  induction s with
  | nil =>
    intro r v d hr
    simp at hr
  | cons a t ih =>
    intro r v d hr
    cases r with
    | zero => rfl
    | succ r => simpa using ih r v d (by simpa using hr)

theorem getD_set_ne {β : Type} : ∀ (s : List β) (r q : Nat) (v d : β),
    r ≠ q → (s.set r v).getD q d = s.getD q d := by
  intro s
  induction s with
  | nil =>
    intro r q v d _
    rfl
  | cons a t ih =>
    intro r q v d hne
    cases r with
    | zero =>
      cases q with
      | zero => exact absurd rfl hne
      | succ q => rfl
    | succ r =>
      cases q with
      | zero => rfl
      | succ q => simpa using ih r q v d (by omega)

theorem getD_append_left {β : Type} : ∀ (s t : List β) (q : Nat) (d : β),
    q < s.length → (s ++ t).getD q d = s.getD q d := by
  intro s
  induction s with
  | nil =>
    intro t q d hq
    simp at hq
  | cons a u ih =>
    intro t q d hq
    cases q with
    | zero => rfl
    | succ q => simpa using ih t q d (by simpa using hq)

theorem set_getD_self {β : Type} : ∀ (s : List β) (r : Nat) (d : β),
    r < s.length → s.set r (s.getD r d) = s := by
  intro s
  induction s with
  | nil =>
    intro r d hr
    simp at hr
  | cons a t ih =>
    intro r d hr
    cases r with
    | zero => rfl
    | succ r => simpa using ih r d (by simpa using hr)

theorem getD_concat_self {β : Type} : ∀ (s : List β) (x d : β),
    (s ++ [x]).getD s.length d = x := by
  intro s
  induction s with
  | nil => intro x d; rfl
  | cons a t ih => intro x d; simp [ih x d]

theorem storeInner_spec {r : Nat} : ∀ (js : List Nat) (s : List (List α)),
    r < s.length →
    js.foldl (fun t j => storeStep t r j) s = s.set r (js.foldl swapStep (s.getD r [])) := by
  intro js
  induction js with
  | nil =>
    intro s hr
    exact (set_getD_self s r [] hr).symm
  | cons j js ih =>
    intro s hr
    have hlen : (storeStep s r j).length = s.length := by simp [storeStep]
    rw [List.foldl_cons, List.foldl_cons, ih (storeStep s r j) (by omega)]
    unfold storeStep
    rw [getD_set_self s r _ [] hr, List.set_set]

theorem storeSort_fold_spec {r : Nat} : ∀ (js : List Nat) (s : List (List α)),
    r < s.length →
    js.foldl (fun t i => storeInner t r ((t.getD r []).length - i - 1)) s =
      s.set r (js.foldl (fun acc i => innerLoop acc (acc.length - i - 1)) (s.getD r [])) := by
  intro js
  induction js with
  | nil =>
    intro s hr
    exact (set_getD_self s r [] hr).symm
  | cons i js ih =>
    intro s hr
    rw [List.foldl_cons, List.foldl_cons]
    have hhead : storeInner s r ((s.getD r []).length - i - 1)
        = s.set r (innerLoop (s.getD r []) ((s.getD r []).length - i - 1)) := by
      unfold storeInner innerLoop
      exact storeInner_spec _ s hr
    have hlen : (s.set r (innerLoop (s.getD r []) ((s.getD r []).length - i - 1))).length
        = s.length := by simp
    rw [hhead, ih _ (by omega), getD_set_self s r _ [] hr, List.set_set]

theorem storeSort_spec (s : List (List α)) (r : Nat) (hr : r < s.length) :
    storeSort s r = s.set r (bubbleSortGo (s.getD r [])) := by
  unfold storeSort bubbleSortGo
  exact storeSort_fold_spec _ s hr

theorem calculateMedianH_snd (s : List (List ℤ)) (r : Nat) :
    (calculateMedianH s r).2 = if (s.getD r []).length = 0 then s
      else (s ++ [s.getD r []]).set s.length (bubbleSortGo (s.getD r [])) := by
  by_cases h0 : (s.getD r []).length = 0
  · rw [if_pos h0]
    unfold calculateMedianH
    rw [if_pos h0]
  · have hfresh : s.length < (s ++ [s.getD r []]).length := by simp
    have hsort := storeSort_spec (s ++ [s.getD r []]) s.length hfresh
    rw [getD_concat_self] at hsort
    rw [if_neg h0]
    unfold calculateMedianH
    rw [if_neg h0]
    exact hsort

theorem calculateMedianH_fst (s : List (List ℤ)) (r : Nat) :
    (calculateMedianH s r).1 = calculateMedian (s.getD r []) := by
  unfold calculateMedianH calculateMedian
  by_cases h0 : (s.getD r []).length = 0
  · rw [if_pos h0, if_pos h0]
  · have hfresh : s.length < (s ++ [s.getD r []]).length := by simp
    have hsort := storeSort_spec (s ++ [s.getD r []]) s.length hfresh
    rw [getD_concat_self] at hsort
    have hget : (storeSort (s ++ [s.getD r []]) s.length).getD s.length []
        = bubbleSortGo (s.getD r []) := by
      rw [hsort]
      exact getD_set_self _ _ _ _ hfresh
    rw [if_neg h0, if_neg h0, hget]

theorem calculateMedianFloatH_snd (s : List (List ℚ)) (r : Nat) :
    (calculateMedianFloatH s r).2 = if (s.getD r []).length = 0 then s
      else (s ++ [s.getD r []]).set s.length (bubbleSortGo (s.getD r [])) := by
  by_cases h0 : (s.getD r []).length = 0
  · rw [if_pos h0]
    unfold calculateMedianFloatH
    rw [if_pos h0]
  · have hfresh : s.length < (s ++ [s.getD r []]).length := by simp
    have hsort := storeSort_spec (s ++ [s.getD r []]) s.length hfresh
    rw [getD_concat_self] at hsort
    rw [if_neg h0]
    unfold calculateMedianFloatH
    rw [if_neg h0]
    exact hsort

theorem calculateMedianFloatH_fst (s : List (List ℚ)) (r : Nat) :
    (calculateMedianFloatH s r).1 = calculateMedianFloat (s.getD r []) := by
  unfold calculateMedianFloatH calculateMedianFloat
  by_cases h0 : (s.getD r []).length = 0
  · rw [if_pos h0, if_pos h0]
  · have hfresh : s.length < (s ++ [s.getD r []]).length := by simp
    have hsort := storeSort_spec (s ++ [s.getD r []]) s.length hfresh
    rw [getD_concat_self] at hsort
    have hget : (storeSort (s ++ [s.getD r []]) s.length).getD s.length []
        = bubbleSortGo (s.getD r []) := by
      rw [hsort]
      exact getD_set_self _ _ _ _ hfresh
    rw [if_neg h0, if_neg h0, hget]

/-! ### Claim theorems -/

theorem getD_map_toF (l : List ℤ) (i : Nat) :
    (l.map toF).getD i 0 = toF (l.getD i 0) := by
  have h := getD_map toF l i 0
  simpa [toF] using h

/-- Claim C4: the median functions return 0 on an empty sample; on a
sample of odd length `n` the central element (index `n/2`) of the
ascending-sorted sample; on a sample of even length the arithmetic average
of the two central elements of the ascending-sorted sample. -/
theorem median_empty_odd_even (xs : List ℤ) (qs : List ℚ) :
    (xs = [] → calculateMedian xs = 0) ∧
    (xs.length % 2 = 1 →
      calculateMedian xs = (((List.insertionSort (· ≤ ·) xs).getD (xs.length / 2) 0 : ℤ) : ℚ)) ∧
    (xs ≠ [] → xs.length % 2 = 0 →
      calculateMedian xs = (((List.insertionSort (· ≤ ·) xs).getD (xs.length / 2 - 1) 0
        + (List.insertionSort (· ≤ ·) xs).getD (xs.length / 2) 0 : ℤ) : ℚ) / 2) ∧
    (qs = [] → calculateMedianFloat qs = 0) ∧
    (qs.length % 2 = 1 →
      calculateMedianFloat qs = (List.insertionSort (· ≤ ·) qs).getD (qs.length / 2) 0) ∧
    (qs ≠ [] → qs.length % 2 = 0 →
      calculateMedianFloat qs = ((List.insertionSort (· ≤ ·) qs).getD (qs.length / 2 - 1) 0
        + (List.insertionSort (· ≤ ·) qs).getD (qs.length / 2) 0) / 2) := by
  refine ⟨?_, ?_, ?_, ?_, ?_, ?_⟩
  · intro h
    rw [h]
    rfl
  · intro hodd
    unfold calculateMedian medianRead
    rw [if_neg (by omega : ¬ xs.length = 0), length_bubbleSortGo,
      if_neg (by omega : ¬ xs.length % 2 = 0), bubbleSortGo_eq_insertionSort]
  · intro hne h0
    have hlen : ¬ xs.length = 0 := fun h => hne (List.length_eq_zero.mp h)
    unfold calculateMedian medianRead
    rw [if_neg hlen, length_bubbleSortGo, if_pos h0, bubbleSortGo_eq_insertionSort]
  · intro h
    rw [h]
    rfl
  · intro hodd
    unfold calculateMedianFloat medianReadF
    rw [if_neg (by omega : ¬ qs.length = 0), length_bubbleSortGo,
      if_neg (by omega : ¬ qs.length % 2 = 0), bubbleSortGo_eq_insertionSort]
  · intro hne h0
    have hlen : ¬ qs.length = 0 := fun h => hne (List.length_eq_zero.mp h)
    unfold calculateMedianFloat medianReadF
    rw [if_neg hlen, length_bubbleSortGo, if_pos h0, bubbleSortGo_eq_insertionSort]

/-- Witness for C4 at concrete samples (odd, even and empty cases). -/
theorem median_empty_odd_even_witness :
    calculateMedian [] = 0 ∧
    calculateMedian [3, 1, 2] = (((List.insertionSort (· ≤ ·) [3, 1, 2]).getD 1 0 : ℤ) : ℚ) ∧
    calculateMedian [4, 1, 3, 2] = (((List.insertionSort (· ≤ ·) [4, 1, 3, 2]).getD 1 0
      + (List.insertionSort (· ≤ ·) [4, 1, 3, 2]).getD 2 0 : ℤ) : ℚ) / 2 ∧
    calculateMedianFloat [5/2] = (List.insertionSort (· ≤ ·) [(5 : ℚ)/2]).getD 0 0 :=
  ⟨(median_empty_odd_even [] []).1 rfl,
   (median_empty_odd_even [3, 1, 2] []).2.1 (by decide),
   (median_empty_odd_even [4, 1, 3, 2] []).2.2.1 (by decide) (by decide),
   (median_empty_odd_even [] [5/2]).2.2.2.2.1 (by decide)⟩

/-- Claim C5: the median is invariant under any permutation of the input
sample, for the integer and the floating versions alike. -/
theorem median_perm_invariant (xs ys : List ℤ) (ps qs : List ℚ) :
    (List.Perm xs ys → calculateMedian xs = calculateMedian ys) ∧
    (List.Perm ps qs → calculateMedianFloat ps = calculateMedianFloat qs) := by
  constructor
  · intro h
    unfold calculateMedian
    rw [h.length_eq, bubbleSortGo_congr_perm h]
  · intro h
    unfold calculateMedianFloat
    rw [h.length_eq, bubbleSortGo_congr_perm h]

/-- Witness for C5 at concrete permuted samples. -/
theorem median_perm_invariant_witness :
    calculateMedian [1, 3, 2] = calculateMedian [2, 1, 3] ∧
    calculateMedianFloat [1/2, 3/2] = calculateMedianFloat [3/2, 1/2] :=
  ⟨(median_perm_invariant [1, 3, 2] [2, 1, 3] [] []).1 (by decide),
   (median_perm_invariant [] [] [1/2, 3/2] [3/2, 1/2]).2 (List.Perm.swap (3/2) (1/2) [])⟩

/-- Claim C10: on integer samples the integer median and the
floating-point median agree: `calculateMedianFloat` on the element-wise
`float64` conversion returns exactly `calculateMedian`'s value. -/
theorem medianFloat_refines_median (xs : List ℤ) :
    calculateMedianFloat (xs.map toF) = calculateMedian xs := by
  unfold calculateMedian calculateMedianFloat
  rw [List.length_map]
  by_cases h0 : xs.length = 0
  · rw [if_pos h0, if_pos h0]
  · rw [if_neg h0, if_neg h0]
    unfold medianRead medianReadF
    rw [bubbleSortGo_map_cast, List.length_map, length_bubbleSortGo]
    by_cases hp : xs.length % 2 = 0
    · rw [if_pos hp, if_pos hp, getD_map_toF, getD_map_toF]
      unfold toF
      push_cast
      ring
    · rw [if_neg hp, if_neg hp, getD_map_toF]
      rfl

theorem weightGroups_keys (ws : List ℚ) :
    (weightGroups ws).map Prod.fst = bubbleSortGo ((ws.map weightKey).dedup) := by
  unfold weightGroups
  rw [List.map_map]
  simp [Function.comp_def]

/-- Claim C3 (amended): every branch weight is mapped to a grouping key
equal to that weight truncated toward zero to 2 decimal places; two raw
weights fall in the same group exactly when their truncated keys are
equal; and the (key, count) groups are emitted in ascending key order. -/
theorem weightGroups_truncKey_sorted (ws : List ℚ) :
    (∀ w ∈ ws, (weightKey w, (ws.map weightKey).count (weightKey w)) ∈ weightGroups ws) ∧
    (∀ w ∈ ws, ∀ w' ∈ ws, (weightKey w = weightKey w' ↔
      ∃ p ∈ weightGroups ws, p.1 = weightKey w ∧ p.1 = weightKey w')) ∧
    ((weightGroups ws).map Prod.fst).Sorted (· < ·) := by
  have hmem : ∀ w ∈ ws,
      (weightKey w, (ws.map weightKey).count (weightKey w)) ∈ weightGroups ws := by
    intro w hw
    unfold weightGroups
    refine List.mem_map_of_mem _ ?_
    exact (bubbleSortGo_perm _).mem_iff.mpr (List.mem_dedup.mpr (List.mem_map_of_mem _ hw))
  refine ⟨hmem, ?_, ?_⟩
  · intro w hw w' _
    constructor
    · intro heq
      exact ⟨(weightKey w, (ws.map weightKey).count (weightKey w)), hmem w hw, rfl, heq ▸ rfl⟩
    · rintro ⟨p, _, h1, h2⟩
      rw [← h1, h2]
  · rw [weightGroups_keys]
    exact (bubbleSortGo_sorted _).lt_of_le
      ((bubbleSortGo_perm _).nodup_iff.mpr (List.nodup_dedup _))

/-- Witness for C3 (amended) at a concrete sample. -/
theorem weightGroups_truncKey_sorted_witness :
    (weightKey (2/3), ([(2 : ℚ)/3, 1/3].map weightKey).count (weightKey (2/3)))
        ∈ weightGroups [2/3, 1/3] ∧
      (weightKey (2/3) = weightKey (1/3) ↔
        ∃ p ∈ weightGroups [2/3, 1/3], p.1 = weightKey (2/3) ∧ p.1 = weightKey (1/3)) :=
  ⟨(weightGroups_truncKey_sorted [2/3, 1/3]).1 (2/3) (by simp),
   (weightGroups_truncKey_sorted [2/3, 1/3]).2.1 (2/3) (by simp) (1/3) (by simp)⟩

theorem weightKey_of_two_thirds : weightKey (2/3) = 33/50 := by
  unfold weightKey truncTowardZero
  rw [if_pos (by norm_num)]
  have hf : ⌊(2/3 * 100 : ℚ)⌋ = 66 := by
    rw [Int.floor_eq_iff]
    constructor <;> norm_num
  rw [hf]
  norm_num

/-- Counterexample to C3 as stated: the realistic branch weight 2/3 (two
nodes with three cosigners each) is grouped under the truncated key 0.66,
while rounding to 2 decimal places gives 0.67: the grouping key is not
the weight rounded to 2 decimal places. -/
theorem weightGroups_key_not_rounded :
    (weightGroups [2/3]).map Prod.fst = [33/50] ∧
      specRound2 (2/3) = 67/100 ∧ (33/50 : ℚ) ≠ 67/100 := by
  refine ⟨?_, ?_, by norm_num⟩
  · rw [weightGroups_keys]
    rw [show ([(2 : ℚ)/3].map weightKey) = [33/50] by simp [weightKey_of_two_thirds]]
    rw [show ([(33 : ℚ)/50].dedup) = [33/50] by simp]
    rfl
  · unfold specRound2
    have hr : round (2/3 * 100 : ℚ) = 67 := by
      rw [round_eq, Int.floor_eq_iff]
      constructor <;> norm_num
    rw [hr]
    norm_num

theorem counts_sum_generic (l : List α) :
    (((bubbleSortGo l.dedup).map fun k => (k, l.count k)).map Prod.snd).sum = l.length := by
  rw [List.map_map]
  have hperm := (bubbleSortGo_perm l.dedup).map (Prod.snd ∘ fun k => (k, l.count k))
  rw [hperm.sum_eq]
  simp only [Function.comp_def]
  exact List.sum_map_count_dedup_eq_length l

/-- Claim C6: in both frequency tables (weights grouped by the 2-decimal
key, branch sizes grouped by identity) the per-group counts sum to the
sample size. -/
theorem freqTable_counts_sum_to_sample_size (ws : List ℚ) (xs : List ℤ) :
    ((weightGroups ws).map Prod.snd).sum = ws.length ∧
    ((sizeGroups xs).map Prod.snd).sum = xs.length := by
  constructor
  · have h := counts_sum_generic (ws.map weightKey)
    unfold weightGroups
    rw [h, List.length_map]
  · exact counts_sum_generic xs

theorem numberOfNodes_fst (g : TxGraph) : (numberOfNodes g).1 = g.nodes.length := by
  rw [numberOfNodes_eq]

theorem numberOfNodes_snd (g : TxGraph) : (numberOfNodes g).2 = none := by
  rw [numberOfNodes_eq]

theorem isSome_firstCosigners_ne {nd : TxNode} (h : (firstCosigners nd).isSome) :
    nd.inputs ≠ [] := by
  intro hnil
  unfold firstCosigners at h
  rw [hnil] at h
  simp at h

theorem sum_map_const_q {β : Type} : ∀ (l : List β) (f : β → ℚ) (c : ℚ),
    (∀ x ∈ l, f x = c) → (l.map f).sum = l.length * c := by
  intro l f c
  induction l with
  | nil =>
    intro _
    simp
  | cons a t ih =>
    intro h
    simp only [List.map_cons, List.sum_cons, List.length_cons]
    rw [h a (by simp), ih fun x hx => h x (by simp [hx])]
    push_cast
    ring

/-- Claim C1: when every visited node's first input has a determinable,
non-empty cosigner-key list, `computeBroadcastWeight` succeeds and returns
the sum over all visited nodes of `1/|cosignerKeys|`; in particular, when
every node has exactly `k ≥ 1` cosigners the result is `n/k` for `n` the
node count, and equals `n` when `k = 1`. -/
theorem broadcastWeight_sums_reciprocal_cosigners (g : TxGraph)
    (h : ∀ nd ∈ g.nodes, (firstCosigners nd).isSome ∧ (firstCosigners nd).getD [] ≠ []) :
    computeBroadcastWeight g = ((g.nodes.map weightTerm).sum, none) ∧
    (∀ k : Nat, 1 ≤ k →
      (∀ nd ∈ g.nodes, ((firstCosigners nd).getD []).length = k) →
      (computeBroadcastWeight g).1 = ((numberOfNodes g).1 : ℚ) / k) ∧
    ((∀ nd ∈ g.nodes, ((firstCosigners nd).getD []).length = 1) →
      (computeBroadcastWeight g).1 = ((numberOfNodes g).1 : ℚ)) := by
  have hok := computeBroadcastWeight_ok fun nd hnd => (h nd hnd).1
  have hgen : ∀ k : Nat, 1 ≤ k →
      (∀ nd ∈ g.nodes, ((firstCosigners nd).getD []).length = k) →
      (computeBroadcastWeight g).1 = ((numberOfNodes g).1 : ℚ) / k := by
    intro k hk huni
    rw [hok, numberOfNodes_fst]
    show (g.nodes.map weightTerm).sum = _
    have hterm : ∀ nd ∈ g.nodes, weightTerm nd = 1 / (k : ℚ) := by
      intro nd hnd
      unfold weightTerm
      rw [huni nd hnd]
    rw [sum_map_const_q g.nodes weightTerm (1 / (k : ℚ)) hterm, mul_one_div]
  refine ⟨hok, hgen, ?_⟩
  intro huni
  have h1 := hgen 1 le_rfl huni
  rw [h1]
  norm_num

def exCos (k : Nat) : TxIn := ⟨some (List.replicate k "pk")⟩

def exChain3 : TxGraph :=
  .mk ⟨"a", [exCos 2]⟩ [.mk ⟨"b", [exCos 2]⟩ [.mk ⟨"c", [exCos 2]⟩ []]]

/-- Witness for C1: a 3-node branch, 2 cosigners everywhere. -/
theorem broadcastWeight_sums_reciprocal_cosigners_witness :
    computeBroadcastWeight exChain3 = ((exChain3.nodes.map weightTerm).sum, none) ∧
    (computeBroadcastWeight exChain3).1 = ((numberOfNodes exChain3).1 : ℚ) / 2 :=
  ⟨(broadcastWeight_sums_reciprocal_cosigners exChain3 (by decide)).1,
   (broadcastWeight_sums_reciprocal_cosigners exChain3 (by decide)).2.1 2
     (by decide) (by decide)⟩

/-- Claim C2 (amended): `computeBroadcastWeight` fails exactly when some
visited node has no inputs or an undeterminable cosigner set; when the
failure comes from an undeterminable cosigner set it is the `InvalidNode`
error, but a node with no inputs produces the index-out-of-range runtime
panic of `Inputs[0]`, not an `InvalidNode` error. -/
theorem broadcastWeight_failure_characterisation (g : TxGraph) :
    ((computeBroadcastWeight g).2 = none ↔
      ∀ nd ∈ g.nodes, nd.inputs ≠ [] ∧ (firstCosigners nd).isSome) ∧
    (∀ e, (computeBroadcastWeight g).2 = some e →
      ((e = .indexOutOfRange ∧ ∃ nd ∈ g.nodes, nd.inputs = []) ∨
       (e = .invalidNode ∧ ∃ nd ∈ g.nodes, nd.inputs ≠ [] ∧ firstCosigners nd = none))) := by
  by_cases hall : ∀ nd ∈ g.nodes, (firstCosigners nd).isSome
  · have hok := computeBroadcastWeight_ok hall
    have h2 : (computeBroadcastWeight g).2 = none := by rw [hok]
    refine ⟨⟨fun _ nd hnd => ⟨isSome_firstCosigners_ne (hall nd hnd), hall nd hnd⟩,
      fun _ => h2⟩, ?_⟩
    intro e he
    rw [h2] at he
    exact Option.noConfusion he
  · push_neg at hall
    obtain ⟨h1, e', he', hkind⟩ := computeBroadcastWeight_err (by
      rcases hall with ⟨nd, hnd, hns⟩
      exact ⟨nd, hnd, by simpa using hns⟩)
    constructor
    · constructor
      · intro hnone
        rw [hnone] at he'
        exact Option.noConfusion he'
      · intro hgood
        exfalso
        rcases hall with ⟨nd, hnd, hns⟩
        exact hns (hgood nd hnd).2
    · intro e he
      have heq : e = e' := by
        rw [he] at he'
        exact Option.some_inj.mp he'
      rw [heq]
      exact hkind

def gBadNoInput : TxGraph := .mk ⟨"r", []⟩ []

/-- Witness for C2 (amended), at a single-node graph with no inputs. -/
theorem broadcastWeight_failure_characterisation_witness :
    (Err.indexOutOfRange = Err.indexOutOfRange ∧
        ∃ nd ∈ gBadNoInput.nodes, nd.inputs = []) ∨
      (Err.indexOutOfRange = Err.invalidNode ∧
        ∃ nd ∈ gBadNoInput.nodes, nd.inputs ≠ [] ∧ firstCosigners nd = none) :=
  (broadcastWeight_failure_characterisation gBadNoInput).2 .indexOutOfRange rfl

/-- Counterexample to C2 as stated: on a graph whose single visited node
has no inputs, `computeBroadcastWeight` fails with the index-out-of-range
runtime panic of `Inputs[0]`, which is not an `InvalidNode` error. -/
theorem broadcastWeight_noInputs_panics_not_invalidNode :
    computeBroadcastWeight gBadNoInput = (0, some .indexOutOfRange) ∧
      Err.indexOutOfRange ≠ Err.invalidNode :=
  ⟨rfl, by decide⟩

/-- Claim C7: on a well-formed tree `sizeOfBranches` succeeds and returns
one branch size per leaf, each between 1 and the whole graph's node count
as computed by `numberOfNodes`. -/
theorem sizeOfBranches_leaf_count_bounds (g : TxGraph) (_hwf : g.wellFormed) :
    ∃ l, sizeOfBranches g = (some l, none) ∧ l.length = g.leaves.length ∧
      ∀ c ∈ l, 1 ≤ c ∧ c ≤ (numberOfNodes g).1 := by
  have hall : ∀ t ∈ g.leaves.map TxNode.txid, ∃ nd ∈ g.nodes, nd.txid = t := by
    intro t ht
    rcases List.mem_map.mp ht with ⟨nd, hnd, rfl⟩
    exact ⟨nd, leaves_subset_nodes hnd, rfl⟩
  obtain ⟨l, hl, hlen, hb⟩ := sizeLoop_ok g _ hall
  refine ⟨l, hl, ?_, ?_⟩
  · rw [hlen, List.length_map]
  · intro c hc
    have hbd := hb c hc
    rwa [numberOfNodes_fst]

def exTree : TxGraph :=
  .mk ⟨"a", [exCos 1]⟩ [.mk ⟨"b", [exCos 1]⟩ [], .mk ⟨"c", [exCos 1]⟩ []]

/-- Witness for C7: a two-leaf tree with distinct transaction ids. -/
theorem sizeOfBranches_leaf_count_bounds_witness :
    ∃ l, sizeOfBranches exTree = (some l, none) ∧ l.length = exTree.leaves.length ∧
      ∀ c ∈ l, 1 ≤ c ∧ c ≤ (numberOfNodes exTree).1 :=
  sizeOfBranches_leaf_count_bounds exTree (by unfold TxGraph.wellFormed; decide)

/-- Claim C8: a failing branch extraction or weight computation aborts
`sizeOfBranches` / `weightOfBranches` at the first failure, propagating
that error unchanged and returning no partial sample; `numberOfNodes`'s
traversal (whose visitor never fails) never returns an error, so it never
returns a partial count. -/
theorem analysis_error_propagation (g : TxGraph) :
    (∀ (tids₁ : List String) (t : String) (tids₂ : List String) (e : Err),
      (∀ t' ∈ tids₁, ∃ b, g.subGraphOne t' = .ok b) →
      g.subGraphOne t = .error e →
      sizeLoop g (tids₁ ++ t :: tids₂) = (none, some e)) ∧
    (∀ (tids₁ : List String) (t : String) (tids₂ : List String) (e : Err),
      (∀ t' ∈ tids₁, ∃ b w, g.subGraphOne t' = .ok b ∧ computeBroadcastWeight b = (w, none)) →
      (g.subGraphOne t = .error e ∨
        ∃ b, g.subGraphOne t = .ok b ∧ (computeBroadcastWeight b).2 = some e) →
      weightLoop g (tids₁ ++ t :: tids₂) = (none, some e)) ∧
    sizeOfBranches g = sizeLoop g (g.leaves.map TxNode.txid) ∧
    weightOfBranches g = weightLoop g (g.leaves.map TxNode.txid) ∧
    (numberOfNodes g).2 = none :=
  ⟨sizeLoop_err g, weightLoop_err g, rfl, rfl, numberOfNodes_snd g⟩

/-- Witness for C8: a failing extraction (absent id) aborts the size loop
with `NotFound`; a failing weight computation aborts the weight loop with
the propagated error. -/
theorem analysis_error_propagation_witness :
    sizeLoop exTree ["z"] = (none, some .notFound) ∧
    weightLoop gBadNoInput ["r"] = (none, some .indexOutOfRange) :=
  ⟨(analysis_error_propagation exTree).1 [] "z" [] .notFound (by simp) rfl,
   (analysis_error_propagation gBadNoInput).2.1 [] "r" [] .indexOutOfRange (by simp)
     (Or.inr ⟨chainGraph ⟨"r", []⟩ [], rfl, rfl⟩)⟩

/-- Claim C9: the median functions leave every slice of the caller's store
unchanged (in particular the input sample): the only written slice is the
freshly allocated copy; the returned value is the median of the caller's
(unchanged) sample. -/
theorem median_preserves_caller_sample (s : List (List ℤ)) (p : List (List ℚ)) (r q : Nat) :
    (r < s.length → q < s.length →
      (calculateMedianH s r).2.getD q [] = s.getD q [] ∧
      (calculateMedianH s r).1 = calculateMedian (s.getD r [])) ∧
    (r < p.length → q < p.length →
      (calculateMedianFloatH p r).2.getD q [] = p.getD q [] ∧
      (calculateMedianFloatH p r).1 = calculateMedianFloat (p.getD r [])) := by
  constructor
  · intro hr hq
    refine ⟨?_, calculateMedianH_fst s r⟩
    rw [calculateMedianH_snd s r]
    by_cases h0 : (s.getD r []).length = 0
    · rw [if_pos h0]
    · rw [if_neg h0, getD_set_ne _ _ _ _ _ (by omega : s.length ≠ q)]
      exact getD_append_left s _ q [] hq
  · intro hr hq
    refine ⟨?_, calculateMedianFloatH_fst p r⟩
    rw [calculateMedianFloatH_snd p r]
    by_cases h0 : (p.getD r []).length = 0
    · rw [if_pos h0]
    · rw [if_neg h0, getD_set_ne _ _ _ _ _ (by omega : p.length ≠ q)]
      exact getD_append_left p _ q [] hq

/-- Witness for C9 at a concrete store holding one sample. -/
theorem median_preserves_caller_sample_witness :
    (calculateMedianH [[3, 1, 2]] 0).2.getD 0 [] = [3, 1, 2] ∧
    (calculateMedianH [[3, 1, 2]] 0).1 = calculateMedian [3, 1, 2] :=
  (median_preserves_caller_sample [[3, 1, 2]] [] 0 0).1 (by decide) (by decide)

end Arktree
